import Mathlib

/-!
# Verification of the xlsx-tags sheet writer

Shallow embedding of `sheet_writer.go` (package `xlsx_tags`): the tag
grammar (`orderRegex`, `headingRegex`, `formatRegex` and the functions
`orderFromTag`, `headingFromTag`, `formatFromTag`, `parseOptFromTag`,
`getParseOptions`), the value-formatting dispatch inside `writeWithTags`,
the ordering step (`sort.Sort(optsByOrder(opts))` and the
`orderToCellPos` map), and the top-level `WriteToSheet` dispatcher.

Strings are modelled by Lean `String` / `List Char`; Go `int` by `Int`
(orders never overflow in the embedding; `strconv.Atoi`'s 64-bit range
check is modelled explicitly); fallible code returns `Except`.  The
three regular expressions are embedded as hand-rolled leftmost-match
scanners; for each of the three concrete patterns the scanner is
equivalent to RE2 matching because every character class involved
excludes the delimiter characters (`"` and `,`), which makes the
greedy/backtracking behaviour deterministic.
-/

namespace XlsxTags

/-- The error values of `sheet_writer.go`, plus the `strconv.NumError`
that `strconv.Atoi` returns from `orderFromTag` (the source propagates
it unwrapped). -/
inductive XlsError where
  | ErrUnsupportedType
  | ErrUnsupportedContentType
  | ErrHeadingPropRequired
  | ErrAtoiParse
deriving DecidableEq

/-- Go struct `parseOpts {order int; heading string; format string}`. -/
structure parseOpts where
  order : Int
  heading : String
  format : String
deriving DecidableEq

instance : Inhabited parseOpts := ⟨⟨0, "", ""⟩⟩

/-- Go method `func (o parseOpts) hasFormatting() bool { return o.format == "" }`.
Note: the receiver returns `true` when the format string is EMPTY. -/
def parseOpts.hasFormatting (o : parseOpts) : Bool :=
  o.format == ""

/-! ## Character classes of the three regular expressions

`orderRegex` matches `order=` then one or more of the class [\d\s\w],
then an optional comma, with an empty `$` alternative.
`headingRegex` matches `heading=` then either a double-quoted run of
the class [#\w . comma-to-slash-range backslash space] or an unquoted
run of the class [#\w\s], followed by a comma or end of string.
`formatRegex` matches `format=` then one or more of the class
[- \w \s % . \d backslash slash], followed by a comma or end of string.

RE2 classes: \d = [0-9], \w = [0-9A-Za-z_], \s = [tab newline formfeed
carriage-return space].  The comma-to-slash range inside the
quoted-heading alternative covers the characters comma, hyphen, period
and slash. -/

/-- RE2 `\w`. -/
def wordChar (c : Char) : Bool := c.isAlphanum || c == '_'

/-- RE2 `\s`. -/
def regexSpace (c : Char) : Bool :=
  c == '\t' || c == '\n' || c == '\x0c' || c == '\r' || c == ' '

/-- The class `[\d\s\w]` of `orderRegex`. -/
def orderClass (c : Char) : Bool := c.isDigit || regexSpace c || wordChar c

/-- The class `[#\w\s]` of the unquoted alternative of `headingRegex`. -/
def plainHeadClass (c : Char) : Bool := c == '#' || wordChar c || regexSpace c

/-- The class (hash, word, period, comma-to-slash range, backslash,
space) of the quoted alternative of `headingRegex`. -/
def quotedHeadClass (c : Char) : Bool :=
  c == '#' || wordChar c || c == '.' || c == ',' || c == '-' || c == '/' ||
    c == '\\' || c == ' '

/-- The class `[-\w\s%.\d\\/]` of `formatRegex`. -/
def formatClass (c : Char) : Bool :=
  c == '-' || wordChar c || regexSpace c || c == '%' || c == '.' ||
    c.isDigit || c == '\\' || c == '/'

/-- Literal-prefix test on character lists. -/
def startsWithL : List Char → List Char → Bool
  | [], _ => true
  | _ :: _, [] => false
  | p :: ps, c :: cs => p == c && startsWithL ps cs

def orderKey : List Char := ['o', 'r', 'd', 'e', 'r', '=']
def headKey : List Char := ['h', 'e', 'a', 'd', 'i', 'n', 'g', '=']
def fmtKey : List Char := ['f', 'o', 'r', 'm', 'a', 't', '=']

/-- Leftmost match of `orderRegex`.  `some cap` is the submatch of the
named group `order`; `none` means the whole-regex match was the empty
`$` alternative, i.e. the group did not participate (so the submatch
map of `findStringSubmatchMap` yields the empty string). -/
def findOrderCap : List Char → Option (List Char)
  | [] => none
  | c :: cs =>
    if startsWithL orderKey (c :: cs) then
      match List.drop 6 (c :: cs) with
      | [] => findOrderCap cs
      | r :: rs =>
        if orderClass r then some (List.takeWhile orderClass (r :: rs))
        else findOrderCap cs
    else findOrderCap cs

/-- The quoted alternative of `headingRegex` (a double-quoted nonempty
run of `quotedHeadClass`) followed by a comma or end of string, tried
at a fixed position.  The capture of the named group `heading`
includes the surrounding quotes. -/
def tryQuoted (rest : List Char) : Option (List Char) :=
  match rest with
  | [] => none
  | c :: r2 =>
    if c = '"' then
      let run := List.takeWhile quotedHeadClass r2
      if run = [] then none
      else
        match List.drop run.length r2 with
        | [] => none
        | c2 :: r3 =>
          if c2 = '"' then
            match r3 with
            | [] => some ('"' :: (run ++ ['"']))
            | c3 :: _ => if c3 = ',' then some ('"' :: (run ++ ['"'])) else none
          else none
    else none

/-- The unquoted alternative `([#\w\s]+)` followed by `(,|$)`, tried at
a fixed position. -/
def tryPlainHead (rest : List Char) : Option (List Char) :=
  let run := List.takeWhile plainHeadClass rest
  if run = [] then none
  else
    match List.drop run.length rest with
    | [] => some run
    | c :: _ => if c = ',' then some run else none

/-- Leftmost match of `headingRegex` (quoted alternative preferred, as
in RE2 leftmost-first matching); `none` means no match, i.e. an empty
submatch map. -/
def findHeadCap : List Char → Option (List Char)
  | [] => none
  | c :: cs =>
    if startsWithL headKey (c :: cs) then
      match tryQuoted (List.drop 8 (c :: cs)) with
      | some cap => some cap
      | none =>
        match tryPlainHead (List.drop 8 (c :: cs)) with
        | some cap => some cap
        | none => findHeadCap cs
    else findHeadCap cs

/-- The alternative `([-\w\s%.\d\\/]+)` followed by `(,|$)` of
`formatRegex`, tried at a fixed position. -/
def tryFmt (rest : List Char) : Option (List Char) :=
  let run := List.takeWhile formatClass rest
  if run = [] then none
  else
    match List.drop run.length rest with
    | [] => some run
    | c :: _ => if c = ',' then some run else none

/-- Leftmost match of `formatRegex`; `none` means no match (empty
submatch map, hence an empty `format` string). -/
def findFmtCap : List Char → Option (List Char)
  | [] => none
  | c :: cs =>
    if startsWithL fmtKey (c :: cs) then
      match tryFmt (List.drop 7 (c :: cs)) with
      | some cap => some cap
      | none => findFmtCap cs
    else findFmtCap cs

/-! ## Trimming and integer parsing -/

/-- Drop matching characters from the end of a list. -/
def trimEndL (p : Char → Bool) (l : List Char) : List Char :=
  (List.dropWhile p l.reverse).reverse

/-- Go `strings.Trim(s, "\"")`: strip all leading and trailing quotes. -/
def trimQuoteL (l : List Char) : List Char :=
  trimEndL (fun c => c == '"') (List.dropWhile (fun c => c == '"') l)

/-- ASCII part of `unicode.IsSpace`, as used by `strings.TrimSpace`. -/
def goSpaceCh (c : Char) : Bool :=
  c == '\t' || c == '\n' || c == '\x0b' || c == '\x0c' || c == '\r' ||
    c == ' ' || c == '\x85' || c == '\xA0'

/-- Go `strings.TrimSpace`. -/
def trimSpaceL (l : List Char) : List Char :=
  trimEndL goSpaceCh (List.dropWhile goSpaceCh l)

/-- Numeric value of a digit string. -/
def digitsToNat (l : List Char) : Nat :=
  l.foldl (fun a c => a * 10 + (c.toNat - 48)) 0

/-- Go `strconv.Atoi`, restricted to the sign-free strings that the
capture class `[\d\s\w]+` of `orderRegex` can produce (the class
contains neither `+` nor `-`): a non-empty all-digit string within the
64-bit signed range parses to its value, anything else is a
`strconv.NumError`. -/
def goAtoi (l : List Char) : Except XlsError Int :=
  if l ≠ [] ∧ (∀ c ∈ l, c.isDigit) ∧ digitsToNat l ≤ 9223372036854775807 then
    .ok (digitsToNat l)
  else .error .ErrAtoiParse

/-! ## The tag-parsing functions of the source -/

/-- Source `func orderFromTag(tag string) (int, error)`. -/
def orderFromTag (tag : String) : Except XlsError Int :=
  goAtoi ((findOrderCap tag.data).getD [])

/-- Source `func headingFromTag(tag string) (string, error)`: strip quotes,
trim whitespace, and require the result non-empty. -/
def headingFromTag (tag : String) : Except XlsError String :=
  let heading := trimSpaceL (trimQuoteL ((findHeadCap tag.data).getD []))
  if heading ≠ [] then .ok (String.mk heading)
  else .error .ErrHeadingPropRequired

/-- Source `func formatFromTag(tag string) string`. -/
def formatFromTag (tag : String) : String :=
  String.mk ((findFmtCap tag.data).getD [])

/-- Source `func parseOptFromTag(tag string) (parseOpts, error)`: order first,
then heading, then format. -/
def parseOptFromTag (tag : String) : Except XlsError parseOpts :=
  match orderFromTag tag with
  | .error e => .error e
  | .ok order =>
    match headingFromTag tag with
    | .error e => .error e
    | .ok heading => .ok { order := order, heading := heading, format := formatFromTag tag }

/-- The skip condition `tag == "" || tag == "-"` used both by
`getParseOptions` and by the per-row loop of `writeWithTags`. -/
def skipTag (tag : String) : Bool := tag == "" || tag == "-"

/-- Source `func getParseOptions(data reflect.Type) ([]parseOpts, error)`.
A record type is modelled by the list of its fields' `xls` tag strings
in declaration order. -/
def getParseOptions : List String → Except XlsError (List parseOpts)
  | [] => .ok []
  | tag :: rest =>
    if skipTag tag then getParseOptions rest
    else
      match parseOptFromTag tag with
      | .error e => .error e
      | .ok opt =>
        match getParseOptions rest with
        | .error e => .error e
        | .ok opts => .ok (opt :: opts)

/-- Model of `time.Time` restricted to what `writeWithTags` consumes:
`IsZero()`, `String()` and `Format(layout)`. -/
structure GoTime where
  isZero : Bool
  stringRep : String
  formatWith : String → String

/-! ## Field values and the formatting dispatch of `writeWithTags`

The Go type switch in `writeWithTags` dispatches on the runtime type of
`item.Field(j).Interface()`.  We model the value universe by the
categories the switch distinguishes:
  - `vint n` — an integer of any width (the `int, int8 ... int64` arms;
    all render identically under the verb `%v`, namely base-10);
  - `vstring s` — a `string`;
  - `vtime t` — a `time.Time`;
  - `vstringer s` — a value of some other type with a `String() string`
    method (`fmt.Stringer`), carrying the result of that method —
    `time.Time` is itself a `Stringer` but is matched by the earlier
    `time.Time` arm, so this constructor stands exactly for Stringer
    values that are not numeric, string or time;
  - `vother s` — any remaining value, carrying its default `%v`
    rendering.
Floating-point arms behave exactly like the integer arm (same code
path); an integer representative keeps the embedding executable. -/
inductive FieldValue where
  | vint : Int → FieldValue
  | vstring : String → FieldValue
  | vtime : GoTime → FieldValue
  | vstringer : String → FieldValue
  | vother : String → FieldValue

/-- Default `%v` rendering of a modelled value.  For ints this is Go's
base-10 rendering; strings render as themselves. -/
def defaultRender : FieldValue → String
  | .vint n => toString n
  | .vstring s => s
  | .vtime t => t.stringRep
  | .vstringer s => s
  | .vother s => s

/-- Go type name of a modelled value, as printed by `fmt`'s
`%!(EXTRA type=value)` diagnostics. -/
def goTypeName : FieldValue → String
  | .vint _ => "int"
  | .vstring _ => "string"
  | .vtime _ => "time.Time"
  | .vstringer _ => "fmt.Stringer"
  | .vother _ => "interface"

/-- Core loop of `fmt.Sprintf` for a single argument, modelled for the
layouts that occur in this development: literal characters are copied;
the first `%v` consumes the argument; a second `%v` prints
`%!v(MISSING)`; if the layout ends without consuming the argument,
`fmt` appends `%!(EXTRA type=value)`.  Layouts containing verbs other
than `%v` do not occur in any theorem below and are not modelled
faithfully (their `%` sequences are copied verbatim). -/
def sprintfLoop : List Char → FieldValue → Bool → List Char
  | [], v, used =>
    if used then []
    else ("%!(EXTRA " ++ goTypeName v ++ "=" ++ defaultRender v ++ ")").data
  | '%' :: 'v' :: rest, v, used =>
    if used then ("%!v(MISSING)").data ++ sprintfLoop rest v used
    else (defaultRender v).data ++ sprintfLoop rest v true
  | c :: rest, v, used => c :: sprintfLoop rest v used

/-- Model of `fmt.Sprintf(format, val)` with one argument. -/
def goSprintf1 (format : String) (v : FieldValue) : String :=
  String.mk (sprintfLoop format.data v false)

/-- The type-switch body of `writeWithTags` (lines 109-132 of
`sheet_writer.go`), producing the display string for one field value
under one column spec:
  - numeric or string: `format := "%v"; if opt.hasFormatting() { format
    = opt.format }; fmt.Sprintf(format, val)`;
  - `time.Time`: `if opt.hasFormatting() { s = val.Format(opt.format) }
    else { s = val.String() }; if val.IsZero() { s = " - " }`;
  - `fmt.Stringer`: `val.String()`;
  - default: `fmt.Sprintf("%v", val)`. -/
def formatValue (opt : parseOpts) : FieldValue → String
  | .vint n =>
    let format := if opt.hasFormatting then opt.format else "%v"
    goSprintf1 format (.vint n)
  | .vstring s =>
    let format := if opt.hasFormatting then opt.format else "%v"
    goSprintf1 format (.vstring s)
  | .vtime t =>
    let s := if opt.hasFormatting then t.formatWith opt.format else t.stringRep
    if t.isZero then " - " else s
  | .vstringer s => s
  | .vother s => s

/-! ## Ordering and cell placement -/

/-- The comparison `optsByOrder.Less(i, j) = o[i].order < o[j].order`
drives `sort.Sort`.  For the slice lengths arising in this development
Go's `sort.Sort` performs insertion sort (its small-slice cutoff), and
insertion sort with a strict `Less` is the stable ascending sort by
`order`; `List.insertionSort` with the reflexive closure of `Less` is
exactly that stable sort. -/
def leOrder (a b : parseOpts) : Prop := a.order ≤ b.order

instance : DecidableRel leOrder := fun a b => Int.decLe a.order b.order

instance : IsTotal parseOpts leOrder := ⟨fun a b => Int.le_total a.order b.order⟩

instance : IsTrans parseOpts leOrder := ⟨fun _ _ _ h h2 => le_trans h h2⟩

/-- The `sort.Sort(optsByOrder(opts))` step. -/
def sortByOrder (opts : List parseOpts) : List parseOpts :=
  List.insertionSort leOrder opts

/-- The loop `for i, opt := range opts { orderToCellPos[opt.order] = i }`
as an association list of (order, index) in write order, starting at
index `i`. -/
def idxPairs : Nat → List parseOpts → List (Int × Nat)
  | _, [] => []
  | i, opt :: rest => (opt.order, i) :: idxPairs (i + 1) rest

/-- The contents of the Go map `orderToCellPos`. -/
def orderToCellPos (sorted : List parseOpts) : List (Int × Nat) :=
  idxPairs 0 sorted

/-- Go map lookup: the value of the LAST write wins (later loop
iterations overwrite earlier ones); a missing key yields the zero
value `0`. -/
def lookupPos (m : List (Int × Nat)) (o : Int) : Nat :=
  ((m.filter (fun pr => pr.1 == o)).getLast?).elim 0 (fun pr => pr.2)

/-- In-place update `values[pos] = s` (out-of-range writes cannot occur
in executions of the source, where `pos` is always an index of the
sorted spec slice; they leave the list unchanged here). -/
def setNth : List String → Nat → String → List String
  | [], _, _ => []
  | _ :: xs, 0, s => s :: xs
  | x :: xs, n + 1, s => x :: setNth xs n s

/-- The order value a row field uses: `order, _ := orderFromTag(tag)`
discards the error, so a failed parse leaves Go's zero value `0`
(unreachable in practice, as `getParseOptions` already validated the
tag). -/
def orderValOf (tag : String) : Int :=
  match orderFromTag tag with
  | .ok n => n
  | .error _ => 0

/-- The inner loop of `writeWithTags` over one item's fields (`for j :=
0; j < item.NumField(); j++`): a field is the pair of its `xls` tag and
its runtime value; skipped tags leave `values` untouched; otherwise the
formatted value is written at `orderToCellPos[order]` using the spec
`opts[pos]` of the SORTED slice (the source sorts `opts` in place
before this loop). -/
def processItem (sorted : List parseOpts) (posMap : List (Int × Nat)) :
    List (String × FieldValue) → List String → List String
  | [], values => values
  | (tag, v) :: rest, values =>
    if skipTag tag then processItem sorted posMap rest values
    else
      let pos := lookupPos posMap (orderValOf tag)
      let opt := sorted.getD pos default
      processItem sorted posMap rest (setNth values pos (formatValue opt v))

/-- The outer loop of `writeWithTags` over the items.  The `values`
slice is allocated ONCE before the loop and re-used across rows
(`values = values[:]` does not reset it), so each row starts from the
previous row's contents; the row appended to the sheet is the snapshot
after processing the item's fields. -/
def emitRows (schema : List String) (sorted : List parseOpts)
    (posMap : List (Int × Nat)) :
    List (List FieldValue) → List String → List (List String)
  | [], _ => []
  | item :: rest, values =>
    let v2 := processItem sorted posMap (schema.zip item) values
    v2 :: emitRows schema sorted posMap rest v2

/-- Source `func writeWithTags(sheet, data) error` (the declarative
pipeline).  The record type is the list of field tags (`schema`), the
data the list of records, each a list of field values aligned with the
schema.  The result is the full sequence of rows appended to the sheet
sink, header first; an error return happens before any row is
appended. -/
def writeWithTags (schema : List String) (items : List (List FieldValue)) :
    Except XlsError (List (List String)) :=
  match getParseOptions schema with
  | .error e => .error e
  | .ok opts =>
    let sorted := sortByOrder opts
    let posMap := orderToCellPos sorted
    .ok (sorted.map parseOpts.heading ::
      emitRows schema sorted posMap items (List.replicate sorted.length ""))

/-! ## The top-level dispatcher `WriteToSheet` -/

/-- Modelled from the spec: the explicit capability interface
(`Marshaller`, whose declaration is not under `src/`; only its use
sites are).  Per the spec it exposes `header() -> sequence<string>` and
`rows() -> sequence<sequence<string>>`, consumed by
`writeWithMarshaller` as `m.Header()` and `m.Data()`. -/
structure MarshallerData where
  headerRow : List String
  dataRows : List (List String)

/-- Source `func writeWithMarshaller(sheet, data) error`: append the
header, then each provided row, verbatim. -/
def writeWithMarshaller (m : MarshallerData) : List (List String) :=
  m.headerRow :: m.dataRows

/-- Source line 29: `var marshallerType = reflect.TypeOf((Marshaller)(nil))`.
Converting the nil interface value `(Marshaller)(nil)` to
`interface{}` yields a nil interface, and `reflect.TypeOf` of a nil
interface returns `nil` — so `marshallerType` is the nil
`reflect.Type`, modelled as `none` (a non-nil type would be `some ()`). -/
def marshallerType : Option Unit := none

/-- Relevant `reflect.Kind`s of an input value. -/
inductive GoKind where
  | array
  | slice
  | struct
  | other
deriving DecidableEq

/-- An input to `WriteToSheet`, carrying everything `reflect` would
extract from it: its kind, the kind of its element type (for arrays
and slices), whether its type implements the `Marshaller` interface
together with that interface's data, and — for the declarative path —
the element type's tag schema and the field values of each element. -/
structure InputVal where
  kind : GoKind
  elemKind : GoKind
  implMarshaller : Bool
  marshaller : MarshallerData
  schema : List String
  items : List (List FieldValue)

/-- Outcome of a call to `WriteToSheet`: the rows appended to the sheet
on success, an error return (before any append for schema errors), or
a runtime panic. -/
inductive WriteOutcome where
  | rows : List (List String) → WriteOutcome
  | err : XlsError → WriteOutcome
  | panicked : String → WriteOutcome
deriving DecidableEq

/-- Source `func WriteToSheet(sheet *xlsx.Sheet, data interface{}) error`:
kind check, element-kind check, then
`v.Type().Implements(marshallerType)` — which panics, because
`marshallerType` is the nil `reflect.Type` and `Type.Implements`
panics when its argument is nil.  The `some` branch keeps the intended
routing for reference; it is unreachable because `marshallerType` is
`none`. -/
def WriteToSheet (input : InputVal) : WriteOutcome :=
  if input.kind ≠ .array ∧ input.kind ≠ .slice then .err .ErrUnsupportedType
  else if input.elemKind ≠ .struct then .err .ErrUnsupportedContentType
  else
    match marshallerType with
    | none => .panicked "reflect: nil type passed to Type.Implements"
    | some _ =>
      if input.implMarshaller then .rows (writeWithMarshaller input.marshaller)
      else
        match writeWithTags input.schema input.items with
        | .ok rs => .rows rs
        | .error e => .err e

/-! ## Claim theorems -/

/-- Sample non-zero instant: the Go time `2009-11-10 23:00:00 UTC`,
with its `String()` rendering and a `Format` function giving the
layout `2006` (year) the rendering `2009`, and the empty layout the
empty string (as `time.Time.Format` does). -/
def sampleTime : GoTime :=
  { isZero := false
    stringRep := "2009-11-10 23:00:00 +0000 UTC"
    formatWith := fun layout =>
      if layout = "2006" then "2009" else if layout = "" then "" else layout }

/-- C1: the claim states that a non-empty `spec.format` is applied as
the template and an empty one falls back to `%v`.  The code does the
opposite, because `hasFormatting()` returns `format == ""`: with an
EMPTY format the template becomes the empty string (so `fmt.Sprintf`
prints the `%!(EXTRA type=value)` diagnostic instead of the `%v`
rendering), and with a NON-EMPTY format the template stays `"%v"` (the
supplied format is ignored).  Evaluated here at an int with an empty
format, an int with the format `id: %v` (the claim would give
`id: 5`), and a string with an empty format. -/
theorem numericFormatInverted :
    formatValue ⟨1, "A", ""⟩ (.vint 5) = "%!(EXTRA int=5)" ∧
    formatValue ⟨1, "A", "id: %v"⟩ (.vint 5) = "5" ∧
    formatValue ⟨1, "A", ""⟩ (.vstring "go") = "%!(EXTRA string=go)" :=
  ⟨rfl, rfl, rfl⟩

/-- C2: the claim states that a non-empty `spec.format` is applied as
the time layout and an empty one falls back to `String()`.  Because
`hasFormatting()` is inverted, the code formats with the EMPTY layout
(yielding the empty string) when no format is given, and falls back to
`String()` (ignoring the layout) when a format IS given.  Evaluated at
a non-zero instant with layout `2006` (the claim would give `2009`)
and with no layout (the claim would give the `String()` rendering). -/
theorem timeFormatInverted :
    formatValue ⟨1, "A", "2006"⟩ (.vtime sampleTime) =
      "2009-11-10 23:00:00 +0000 UTC" ∧
    formatValue ⟨1, "A", ""⟩ (.vtime sampleTime) = "" :=
  ⟨rfl, rfl⟩

/-- C3: the claim states that a collection satisfying the capability
interface gets its header and rows emitted verbatim.  In the code no
input ever reaches `writeWithMarshaller`: `marshallerType` is the nil
`reflect.Type` (`reflect.TypeOf` of the nil interface value
`(Marshaller)(nil)` returns nil), so `v.Type().Implements(marshallerType)`
panics for every input that passes the kind checks — here evaluated at
a slice-of-structs input implementing the capability with header
`[A, B]` and rows `[1,2]`, `[3,4]`. -/
theorem marshallerInputPanics :
    WriteToSheet
        { kind := .slice, elemKind := .struct, implMarshaller := true
          marshaller := ⟨["A", "B"], [["1", "2"], ["3", "4"]]⟩
          schema := [], items := [] } =
      .panicked "reflect: nil type passed to Type.Implements" := rfl

/-- C4 counterexample: two fields sharing `order = 1`.  Both headings
survive (the stable sort keeps declaration order), but in the data row
both fields map to the same cell `orderToCellPos[1] = 1`: the second
value overwrites the first, cell 0 keeps its initial empty string, and
the first field's value `x` appears nowhere — so the claim that both
values appear, stably ordered, is false. -/
theorem duplicateOrderLosesValue :
    writeWithTags ["order=1,heading=A", "order=1,heading=B"]
        [[.vstringer "x", .vstringer "y"]] =
      .ok [["A", "B"], ["", "y"]] ∧
    "x" ∉ [("" : String), "y"] :=
  ⟨rfl, by decide⟩

/-- C5: a zero instant renders as the fixed placeholder `" - "`
whatever the column spec (the `IsZero` override is applied after the
format/String choice, so the inverted `hasFormatting` logic cannot
affect it). -/
theorem zeroTimePlaceholder (opt : parseOpts) (t : GoTime)
    (h : t.isZero = true) :
    formatValue opt (.vtime t) = " - " := by
  simp [formatValue, h]

/-- Sample zero instant (`time.Time{}`). -/
def zeroTime : GoTime :=
  { isZero := true
    stringRep := "0001-01-01 00:00:00 +0000 UTC"
    formatWith := fun _ => "" }

/-- Witness for C5: the zero instant under a spec with a format
template still renders `" - "`. -/
theorem zeroTimePlaceholderWitness :
    zeroTime.isZero = true ∧
    formatValue ⟨1, "Date", "2006-01-02"⟩ (.vtime zeroTime) = " - " :=
  ⟨rfl, zeroTimePlaceholder ⟨1, "Date", "2006-01-02"⟩ zeroTime rfl⟩

/-- C6 counterexample: the tag `heading=` lacks a non-empty heading,
but `parseOptFromTag` parses the order FIRST, and with no parseable
order the operation fails with the `strconv.Atoi` error, not with
`ErrHeadingPropRequired` — so the claim that a missing heading always
surfaces as the MissingHeading error is false. -/
theorem missingHeadingWrongError :
    writeWithTags ["heading="] [] = .error .ErrAtoiParse ∧
    XlsError.ErrAtoiParse ≠ XlsError.ErrHeadingPropRequired :=
  ⟨rfl, by decide⟩

/-- C8: a Stringer value (of a type that is not numeric, string or
`time.Time`, which the earlier arms of the type switch would capture)
always renders via its `String()` method; the column spec — in
particular its format — plays no role. -/
theorem stringerIgnoresFormat (opt : parseOpts) (s : String) :
    formatValue opt (.vstringer s) = s := rfl

/-- C9: an input whose kind is neither array nor slice fails with
`ErrUnsupportedType`; the error return is the first statement of
`WriteToSheet`, before anything touches the sheet, so the sink
receives no append (an `err` outcome carries no rows). -/
theorem nonSequenceUnsupportedType (input : InputVal)
    (h1 : input.kind ≠ .array) (h2 : input.kind ≠ .slice) :
    WriteToSheet input = .err .ErrUnsupportedType := by
  unfold WriteToSheet
  rw [if_pos ⟨h1, h2⟩]

/-- Witness for C9: a single struct (not a collection). -/
theorem nonSequenceUnsupportedTypeWitness :
    (GoKind.struct ≠ GoKind.array) ∧ (GoKind.struct ≠ GoKind.slice) ∧
    WriteToSheet
        { kind := .struct, elemKind := .struct, implMarshaller := false
          marshaller := ⟨[], []⟩, schema := [], items := [] } =
      .err .ErrUnsupportedType :=
  ⟨by decide, by decide, nonSequenceUnsupportedType _ (by decide) (by decide)⟩

/-- C10: the claim states that every slice/array-of-structs input
terminates normally with success or a defined error.  Instead, every
such input panics: `marshallerType` is nil (see `marshallerType`), and
`reflect.Type.Implements` panics on a nil argument, so the capability
test itself is never well-defined. -/
theorem sliceOfStructsPanics (input : InputVal)
    (hkind : input.kind = .array ∨ input.kind = .slice)
    (helem : input.elemKind = .struct) :
    WriteToSheet input = .panicked "reflect: nil type passed to Type.Implements" := by
  unfold WriteToSheet
  rcases hkind with h | h <;>
    simp [h, helem, marshallerType]

/-- Witness for C10: an empty slice of annotated structs. -/
theorem sliceOfStructsPanicsWitness :
    (GoKind.slice = GoKind.array ∨ GoKind.slice = GoKind.slice) ∧
    WriteToSheet
        { kind := .slice, elemKind := .struct, implMarshaller := false
          marshaller := ⟨[], []⟩, schema := ["order=1,heading=A"], items := [] } =
      .panicked "reflect: nil type passed to Type.Implements" :=
  ⟨Or.inr rfl, sliceOfStructsPanics _ (Or.inr rfl) rfl⟩

/-! ## C6 (amended): missing heading fails before any output -/

/-- The only error `headingFromTag` can produce is
`ErrHeadingPropRequired`. -/
theorem headingFromTag_error_eq (tag : String) (e : XlsError)
    (h : headingFromTag tag = .error e) : e = .ErrHeadingPropRequired := by
  rw [headingFromTag] at h
  by_cases hc : trimSpaceL (trimQuoteL ((findHeadCap tag.data).getD [])) = []
  · simp only [hc, ne_eq, not_true_eq_false, if_false, Except.error.injEq] at h
    exact h.symm
  · simp only [hc, ne_eq, not_false_eq_true, if_true] at h
    cases h

/-- If every annotated (non-skipped) tag has a parseable order and some
annotated tag has no valid heading, collecting the parse options fails
with `ErrHeadingPropRequired`. -/
theorem getParseOptions_missing_heading (schema : List String)
    (hord : ∀ tag ∈ schema, skipTag tag = false → ∃ n, orderFromTag tag = .ok n)
    (hmiss : ∃ tag ∈ schema, skipTag tag = false ∧
      headingFromTag tag = .error .ErrHeadingPropRequired) :
    getParseOptions schema = .error .ErrHeadingPropRequired := by
  induction schema with
  | nil => simp at hmiss
  | cons tag rest ih =>
    have hordRest : ∀ t ∈ rest, skipTag t = false → ∃ n, orderFromTag t = .ok n :=
      fun t ht => hord t (List.mem_cons_of_mem _ ht)
    by_cases hskip : skipTag tag
    · have hmissRest : ∃ t ∈ rest, skipTag t = false ∧
          headingFromTag t = .error .ErrHeadingPropRequired := by
        rcases hmiss with ⟨t, hmem, hns, hmh⟩
        rcases List.mem_cons.mp hmem with rfl | hmem2
        · rw [hskip] at hns; cases hns
        · exact ⟨t, hmem2, hns, hmh⟩
      simpa [getParseOptions, hskip] using ih hordRest hmissRest
    · rw [Bool.not_eq_true] at hskip
      obtain ⟨n, hn⟩ := hord tag (List.mem_cons_self _ _) hskip
      cases hh : headingFromTag tag with
      | error e =>
        have : e = .ErrHeadingPropRequired := headingFromTag_error_eq tag e hh
        subst this
        simp [getParseOptions, hskip, parseOptFromTag, hn, hh]
      | ok hd =>
        have hmissRest : ∃ t ∈ rest, skipTag t = false ∧
            headingFromTag t = .error .ErrHeadingPropRequired := by
          rcases hmiss with ⟨t, hmem, hns, hmh⟩
          rcases List.mem_cons.mp hmem with rfl | hmem2
          · rw [hmh] at hh; cases hh
          · exact ⟨t, hmem2, hns, hmh⟩
        simp [getParseOptions, hskip, parseOptFromTag, hn, hh,
          ih hordRest hmissRest]

/-- C6 (amended): if every annotated field's tag contains a parseable
order value and some annotated field's tag lacks a non-empty heading,
the declarative write fails with `ErrHeadingPropRequired`, and the
sink receives zero appends: the error return of `writeWithTags`
happens before `writeHeadingFromOpts` and before any `writeRow` (an
`Except.error` result carries no emitted rows). -/
theorem missingHeadingFailsBeforeOutput (schema : List String)
    (items : List (List FieldValue))
    (hord : ∀ tag ∈ schema, skipTag tag = false → ∃ n, orderFromTag tag = .ok n)
    (hmiss : ∃ tag ∈ schema, skipTag tag = false ∧
      headingFromTag tag = .error .ErrHeadingPropRequired) :
    writeWithTags schema items = .error .ErrHeadingPropRequired := by
  unfold writeWithTags
  rw [getParseOptions_missing_heading schema hord hmiss]

/-- Witness for the amended C6: a single field whose tag has a valid
order but an empty heading. -/
theorem missingHeadingFailsBeforeOutputWitness :
    (∀ tag ∈ ["order=1,heading="], skipTag tag = false →
      ∃ n, orderFromTag tag = .ok n) ∧
    (∃ tag ∈ ["order=1,heading="], skipTag tag = false ∧
      headingFromTag tag = .error .ErrHeadingPropRequired) ∧
    writeWithTags ["order=1,heading="] [[]] = .error .ErrHeadingPropRequired := by
  refine ⟨?_, ?_, ?_⟩
  · intro tag htag _
    rw [List.mem_singleton.mp htag]
    exact ⟨1, rfl⟩
  · exact ⟨"order=1,heading=", List.mem_singleton_self _, rfl, rfl⟩
  · exact missingHeadingFailsBeforeOutput _ _
      (fun tag htag _ => ⟨1, by rw [List.mem_singleton.mp htag]; exact rfl⟩)
      ⟨"order=1,heading=", List.mem_singleton_self _, rfl, rfl⟩

/-! ## C7: the grammar accepts the keys in any order

The lemmas below characterise the three scanners on well-formed tags.
The crucial structural fact is that a key literal (`order=`, `heading=`,
`format=`) cannot occur inside a value region: every value character
class excludes `=`, and a match window crossing a segment boundary
would have to match the separating comma, which none of the key
literals contain. -/

theorem startsWithL_mem (p : List Char) :
    ∀ l : List Char, startsWithL p l = true → ∀ c ∈ p, c ∈ l := by
  induction p with
  | nil => intro l _ c hc; simp at hc
  | cons a p ih =>
    intro l h c hc
    cases l with
    | nil => simp [startsWithL] at h
    | cons b l =>
      rw [startsWithL, Bool.and_eq_true, beq_iff_eq] at h
      rcases List.mem_cons.mp hc with rfl | hc2
      · rw [h.1]; exact List.mem_cons_self _ _
      · exact List.mem_cons_of_mem _ (ih l h.2 c hc2)

theorem startsWithL_append_long (p : List Char) :
    ∀ l1 l2 : List Char, startsWithL p (l1 ++ l2) = true →
      l1.length < p.length →
      ∃ p2, p = l1 ++ p2 ∧ p2 ≠ [] ∧ startsWithL p2 l2 = true := by
  induction p with
  | nil => intro l1 l2 _ hlen; simp at hlen
  | cons a p ih =>
    intro l1 l2 h hlen
    cases l1 with
    | nil =>
      exact ⟨a :: p, rfl, by simp, h⟩
    | cons b l1 =>
      rw [List.cons_append, startsWithL, Bool.and_eq_true, beq_iff_eq] at h
      obtain ⟨p2, hp, hne, hs⟩ := ih l1 l2 h.2 (by simpa using hlen)
      exact ⟨p2, by rw [h.1, List.cons_append, ← hp], hne, hs⟩

theorem startsWithL_short (p : List Char) :
    ∀ l1 l2 : List Char, startsWithL p (l1 ++ l2) = true →
      p.length ≤ l1.length → ∀ c ∈ p, c ∈ l1 := by
  induction p with
  | nil => intro l1 l2 _ _ c hc; simp at hc
  | cons a p ih =>
    intro l1 l2 h hlen c hc
    cases l1 with
    | nil => simp at hlen
    | cons b l1 =>
      rw [List.cons_append, startsWithL, Bool.and_eq_true, beq_iff_eq] at h
      rcases List.mem_cons.mp hc with rfl | hc2
      · rw [h.1]; exact List.mem_cons_self _ _
      · exact List.mem_cons_of_mem _ (ih l1 l2 h.2 (by simpa using hlen) c hc2)

/-- A key literal containing `=` but no comma cannot start at any
position of a value region (whose characters exclude `=`) followed by
a comma or the end of the tag. -/
theorem startsWithL_val_false (key : List Char) (hkeyEq : '=' ∈ key)
    (hkeyComma : ',' ∉ key) (c : Char) (v rest : List Char)
    (hv : ∀ x ∈ c :: v, x ≠ '=')
    (hrest : rest = [] ∨ ∃ r, rest = ',' :: r) :
    startsWithL key ((c :: v) ++ rest) = false := by
  by_contra hcon
  rw [Bool.not_eq_false] at hcon
  rcases Nat.lt_or_ge (c :: v).length key.length with hlen | hlen
  · obtain ⟨p2, hp, hne, hs⟩ := startsWithL_append_long key (c :: v) rest hcon hlen
    rcases hrest with rfl | ⟨r, rfl⟩
    · cases p2 with
      | nil => exact hne rfl
      | cons a p2 => simp [startsWithL] at hs
    · cases p2 with
      | nil => exact hne rfl
      | cons a p2 =>
        rw [startsWithL, Bool.and_eq_true, beq_iff_eq] at hs
        apply hkeyComma
        rw [hp, hs.1]
        exact List.mem_append_right _ (List.mem_cons_self _ _)
  · exact hv '=' (startsWithL_short key (c :: v) rest hcon hlen '=' hkeyEq) rfl

theorem takeWhile_all_append (p : Char → Bool) (l1 l2 : List Char)
    (h : ∀ x ∈ l1, p x = true) :
    List.takeWhile p (l1 ++ l2) = l1 ++ List.takeWhile p l2 := by
  induction l1 with
  | nil => rfl
  | cons c l ih =>
    rw [List.cons_append, List.takeWhile_cons, h c (List.mem_cons_self _ _),
      ih (fun x hx => h x (List.mem_cons_of_mem _ hx))]
    rfl

/-! ### Scanning past value regions and foreign keys -/

theorem findOrderCap_skip_val (v rest : List Char)
    (hv : ∀ x ∈ v, x ≠ '=')
    (hrest : rest = [] ∨ ∃ r, rest = ',' :: r) :
    findOrderCap (v ++ rest) = findOrderCap rest := by
  induction v with
  | nil => rfl
  | cons c v ih =>
    have hfalse :=
      startsWithL_val_false orderKey (by decide) (by decide) c v rest hv hrest
    rw [List.cons_append] at hfalse
    rw [List.cons_append, findOrderCap, hfalse]
    exact ih (fun x hx => hv x (List.mem_cons_of_mem _ hx))

theorem findHeadCap_skip_val (v rest : List Char)
    (hv : ∀ x ∈ v, x ≠ '=')
    (hrest : rest = [] ∨ ∃ r, rest = ',' :: r) :
    findHeadCap (v ++ rest) = findHeadCap rest := by
  induction v with
  | nil => rfl
  | cons c v ih =>
    have hfalse :=
      startsWithL_val_false headKey (by decide) (by decide) c v rest hv hrest
    rw [List.cons_append] at hfalse
    rw [List.cons_append, findHeadCap, hfalse]
    exact ih (fun x hx => hv x (List.mem_cons_of_mem _ hx))

theorem findFmtCap_skip_val (v rest : List Char)
    (hv : ∀ x ∈ v, x ≠ '=')
    (hrest : rest = [] ∨ ∃ r, rest = ',' :: r) :
    findFmtCap (v ++ rest) = findFmtCap rest := by
  induction v with
  | nil => rfl
  | cons c v ih =>
    have hfalse :=
      startsWithL_val_false fmtKey (by decide) (by decide) c v rest hv hrest
    rw [List.cons_append] at hfalse
    rw [List.cons_append, findFmtCap, hfalse]
    exact ih (fun x hx => hv x (List.mem_cons_of_mem _ hx))

theorem findOrderCap_skip_headKey (l : List Char) :
    findOrderCap (headKey ++ l) = findOrderCap l := rfl

theorem findOrderCap_skip_fmtKey (l : List Char) :
    findOrderCap (fmtKey ++ l) = findOrderCap l := rfl

theorem findOrderCap_comma (r : List Char) :
    findOrderCap (',' :: r) = findOrderCap r := rfl

theorem findHeadCap_skip_orderKey (l : List Char) :
    findHeadCap (orderKey ++ l) = findHeadCap l := rfl

theorem findHeadCap_skip_fmtKey (l : List Char) :
    findHeadCap (fmtKey ++ l) = findHeadCap l := rfl

theorem findHeadCap_comma (r : List Char) :
    findHeadCap (',' :: r) = findHeadCap r := rfl

theorem findFmtCap_skip_orderKey (l : List Char) :
    findFmtCap (orderKey ++ l) = findFmtCap l := rfl

theorem findFmtCap_skip_headKey (l : List Char) :
    findFmtCap (headKey ++ l) = findFmtCap l := rfl

theorem findFmtCap_comma (r : List Char) :
    findFmtCap (',' :: r) = findFmtCap r := rfl

/-! ### Hitting the target key -/

theorem drop_len_append (l1 l2 : List Char) :
    List.drop l1.length (l1 ++ l2) = l2 := by
  induction l1 with
  | nil => rfl
  | cons c l ih => simpa using ih

theorem findOrderCap_hit (n rest : List Char) (hn : n ≠ [])
    (hcls : ∀ c ∈ n, orderClass c = true)
    (hrest : rest = [] ∨ ∃ r, rest = ',' :: r) :
    findOrderCap (orderKey ++ n ++ rest) = some n := by
  obtain ⟨d, n1, rfl⟩ := List.exists_cons_of_ne_nil hn
  have htake : List.takeWhile orderClass (d :: (n1 ++ rest)) = d :: n1 := by
    have h1 : List.takeWhile orderClass ((d :: n1) ++ rest) =
        (d :: n1) ++ List.takeWhile orderClass rest :=
      takeWhile_all_append _ _ _ hcls
    rw [List.cons_append] at h1
    rw [h1]
    rcases hrest with rfl | ⟨r, rfl⟩
    · simp
    · rw [show List.takeWhile orderClass (',' :: r) = [] from rfl, List.append_nil]
  have hstep : findOrderCap (orderKey ++ ((d :: n1) ++ rest)) =
      if orderClass d then some (List.takeWhile orderClass (d :: (n1 ++ rest)))
      else findOrderCap ('r' :: 'd' :: 'e' :: 'r' :: '=' :: d :: (n1 ++ rest)) := rfl
  rw [List.append_assoc, hstep, if_pos (hcls d (List.mem_cons_self _ _)), htake]

theorem findOrderCap_hit_end (n : List Char) (hn : n ≠ [])
    (hcls : ∀ c ∈ n, orderClass c = true) :
    findOrderCap (orderKey ++ n) = some n := by
  have h := findOrderCap_hit n [] hn hcls (Or.inl rfl)
  rw [List.append_nil] at h
  exact h

theorem tryQuoted_not_quote (c : Char) (X : List Char) (hd : ¬c = '"') :
    tryQuoted (c :: X) = none := by
  unfold tryQuoted
  exact if_neg hd

theorem tryPlainHead_hit (hv rest : List Char) (hne : hv ≠ [])
    (hcls : ∀ c ∈ hv, plainHeadClass c = true)
    (hrest : rest = [] ∨ ∃ r, rest = ',' :: r) :
    tryPlainHead (hv ++ rest) = some hv := by
  have hrun : List.takeWhile plainHeadClass (hv ++ rest) = hv := by
    rw [takeWhile_all_append _ _ _ hcls]
    rcases hrest with rfl | ⟨r, rfl⟩
    · simp
    · rw [show List.takeWhile plainHeadClass (',' :: r) = [] from rfl,
        List.append_nil]
  unfold tryPlainHead
  simp only [hrun]
  rw [if_neg hne, drop_len_append]
  rcases hrest with rfl | ⟨r, rfl⟩
  · rfl
  · rfl

theorem tryFmt_hit (f rest : List Char) (hne : f ≠ [])
    (hcls : ∀ c ∈ f, formatClass c = true)
    (hrest : rest = [] ∨ ∃ r, rest = ',' :: r) :
    tryFmt (f ++ rest) = some f := by
  have hrun : List.takeWhile formatClass (f ++ rest) = f := by
    rw [takeWhile_all_append _ _ _ hcls]
    rcases hrest with rfl | ⟨r, rfl⟩
    · simp
    · rw [show List.takeWhile formatClass (',' :: r) = [] from rfl,
        List.append_nil]
  unfold tryFmt
  simp only [hrun]
  rw [if_neg hne, drop_len_append]
  rcases hrest with rfl | ⟨r, rfl⟩
  · rfl
  · rfl

theorem tryQuoted_hit (core rest : List Char) (hne : core ≠ [])
    (hcls : ∀ c ∈ core, quotedHeadClass c = true)
    (hrest : rest = [] ∨ ∃ r, rest = ',' :: r) :
    tryQuoted (('"' :: (core ++ ['"'])) ++ rest) = some ('"' :: (core ++ ['"'])) := by
  have hrun : List.takeWhile quotedHeadClass ((core ++ ['"']) ++ rest) = core := by
    rw [List.append_assoc, takeWhile_all_append _ _ _ hcls,
      List.singleton_append,
      show List.takeWhile quotedHeadClass ('"' :: rest) = [] from rfl,
      List.append_nil]
  have hdrop : List.drop core.length ((core ++ ['"']) ++ rest) = '"' :: rest := by
    rw [List.append_assoc, drop_len_append]; rfl
  rw [List.cons_append]
  simp only [tryQuoted, if_true]
  rw [hrun, if_neg hne, hdrop]
  rcases hrest with rfl | ⟨r, rfl⟩
  · rfl
  · rfl

/-- The two admissible heading-value forms of `headingRegex`: an
unquoted nonempty run of `plainHeadClass`, or a double-quoted nonempty
run of `quotedHeadClass`. -/
def PlainHeadVal (hv : List Char) : Prop :=
  hv ≠ [] ∧ ∀ c ∈ hv, plainHeadClass c = true

def QuotedHeadVal (hv : List Char) : Prop :=
  ∃ core, core ≠ [] ∧ (∀ c ∈ core, quotedHeadClass c = true) ∧
    hv = '"' :: (core ++ ['"'])

def HeadVal (hv : List Char) : Prop := PlainHeadVal hv ∨ QuotedHeadVal hv

theorem findHeadCap_hit (hv rest : List Char) (hhv : HeadVal hv)
    (hrest : rest = [] ∨ ∃ r, rest = ',' :: r) :
    findHeadCap (headKey ++ hv ++ rest) = some hv := by
  rcases hhv with ⟨hne, hcls⟩ | ⟨core, hne, hcls, rfl⟩
  · obtain ⟨d, hv1, rfl⟩ := List.exists_cons_of_ne_nil hne
    have hd : ¬d = '"' := by
      intro h; subst h
      exact absurd (hcls '"' (List.mem_cons_self _ _)) (by decide)
    have hstep : findHeadCap (headKey ++ ((d :: hv1) ++ rest)) =
        (match tryQuoted ((d :: hv1) ++ rest) with
         | some cap => some cap
         | none =>
           match tryPlainHead ((d :: hv1) ++ rest) with
           | some cap => some cap
           | none =>
             findHeadCap (List.tail (headKey ++ ((d :: hv1) ++ rest)))) := rfl
    rw [List.append_assoc, hstep,
      show tryQuoted ((d :: hv1) ++ rest) = none from by
        rw [List.cons_append]; exact tryQuoted_not_quote d _ hd,
      tryPlainHead_hit (d :: hv1) rest hne hcls hrest]
  · have hstep : findHeadCap (headKey ++ (('"' :: (core ++ ['"'])) ++ rest)) =
        (match tryQuoted (('"' :: (core ++ ['"'])) ++ rest) with
         | some cap => some cap
         | none =>
           match tryPlainHead (('"' :: (core ++ ['"'])) ++ rest) with
           | some cap => some cap
           | none =>
             findHeadCap
               (List.tail (headKey ++ (('"' :: (core ++ ['"'])) ++ rest)))) := rfl
    rw [List.append_assoc, hstep, tryQuoted_hit core rest hne hcls hrest]

theorem findHeadCap_hit_end (hv : List Char) (hhv : HeadVal hv) :
    findHeadCap (headKey ++ hv) = some hv := by
  have := findHeadCap_hit hv [] hhv (Or.inl rfl)
  simpa using this

theorem findFmtCap_hit (f rest : List Char) (hne : f ≠ [])
    (hcls : ∀ c ∈ f, formatClass c = true)
    (hrest : rest = [] ∨ ∃ r, rest = ',' :: r) :
    findFmtCap (fmtKey ++ f ++ rest) = some f := by
  have hstep : findFmtCap (fmtKey ++ (f ++ rest)) =
      (match tryFmt (f ++ rest) with
       | some cap => some cap
       | none => findFmtCap (List.tail (fmtKey ++ (f ++ rest)))) := rfl
  rw [List.append_assoc, hstep, tryFmt_hit f rest hne hcls hrest]

theorem findFmtCap_hit_end (f : List Char) (hne : f ≠ [])
    (hcls : ∀ c ∈ f, formatClass c = true) :
    findFmtCap (fmtKey ++ f) = some f := by
  have := findFmtCap_hit f [] hne hcls (Or.inl rfl)
  simpa using this

/-! ### Comma-shaped wrappers for rewriting chains -/

theorem findOrderCap_skip_valc (v r : List Char) (hv : ∀ x ∈ v, x ≠ '=') :
    findOrderCap (v ++ ',' :: r) = findOrderCap r := by
  rw [findOrderCap_skip_val v (',' :: r) hv (Or.inr ⟨r, rfl⟩), findOrderCap_comma]

theorem findHeadCap_skip_valc (v r : List Char) (hv : ∀ x ∈ v, x ≠ '=') :
    findHeadCap (v ++ ',' :: r) = findHeadCap r := by
  rw [findHeadCap_skip_val v (',' :: r) hv (Or.inr ⟨r, rfl⟩), findHeadCap_comma]

theorem findFmtCap_skip_valc (v r : List Char) (hv : ∀ x ∈ v, x ≠ '=') :
    findFmtCap (v ++ ',' :: r) = findFmtCap r := by
  rw [findFmtCap_skip_val v (',' :: r) hv (Or.inr ⟨r, rfl⟩), findFmtCap_comma]

theorem findOrderCap_hitc (n r : List Char) (hn : n ≠ [])
    (hcls : ∀ c ∈ n, orderClass c = true) :
    findOrderCap (orderKey ++ n ++ ',' :: r) = some n :=
  findOrderCap_hit n (',' :: r) hn hcls (Or.inr ⟨r, rfl⟩)

theorem findHeadCap_hitc (hv r : List Char) (hhv : HeadVal hv) :
    findHeadCap (headKey ++ hv ++ ',' :: r) = some hv :=
  findHeadCap_hit hv (',' :: r) hhv (Or.inr ⟨r, rfl⟩)

theorem findFmtCap_hitc (f r : List Char) (hne : f ≠ [])
    (hcls : ∀ c ∈ f, formatClass c = true) :
    findFmtCap (fmtKey ++ f ++ ',' :: r) = some f :=
  findFmtCap_hit f (',' :: r) hne hcls (Or.inr ⟨r, rfl⟩)

theorem findFmtCap_val_end (v : List Char) (hv : ∀ x ∈ v, x ≠ '=') :
    findFmtCap v = none := by
  have h := findFmtCap_skip_val v [] hv (Or.inl rfl)
  rw [List.append_nil] at h
  exact h

/-! ### Character-class consequences -/

theorem digit_orderClass (n : List Char) (h : ∀ c ∈ n, c.isDigit = true) :
    ∀ c ∈ n, orderClass c = true := fun c hc => by
  unfold orderClass
  rw [h c hc]
  rfl

theorem digit_ne_eq (n : List Char) (h : ∀ c ∈ n, c.isDigit = true) :
    ∀ x ∈ n, x ≠ '=' := fun x hx heq => by
  subst heq
  exact absurd (h _ hx) (by decide)

theorem fmt_ne_eq (f : List Char) (h : ∀ c ∈ f, formatClass c = true) :
    ∀ x ∈ f, x ≠ '=' := fun x hx heq => by
  subst heq
  exact absurd (h _ hx) (by decide)

theorem headVal_ne_eq (hv : List Char) (h : HeadVal hv) :
    ∀ x ∈ hv, x ≠ '=' := by
  rcases h with ⟨_, hcls⟩ | ⟨core, _, hcls, rfl⟩
  · intro x hx heq
    subst heq
    exact absurd (hcls _ hx) (by decide)
  · intro x hx heq
    subst heq
    rcases List.mem_cons.mp hx with h1 | h2
    · exact absurd h1 (by decide)
    · rcases List.mem_append.mp h2 with h3 | h4
      · exact absurd (hcls _ h3) (by decide)
      · exact absurd (List.mem_singleton.mp h4) (by decide)

/-! ### Well-formed tags: the key segments in every order -/

/-- A tag segment `order=N`. -/
def orderSegL (n : List Char) : List Char := orderKey ++ n

/-- A tag segment `heading=H`. -/
def headSegL (hv : List Char) : List Char := headKey ++ hv

/-- A tag segment `format=F`. -/
def fmtSegL (f : List Char) : List Char := fmtKey ++ f

/-- Two comma-separated segments. -/
def seg2 (a b : List Char) : List Char := a ++ ',' :: b

/-- Three comma-separated segments. -/
def seg3 (a b c : List Char) : List Char := a ++ ',' :: (b ++ ',' :: c)

theorem caps_ohf (n hv f : List Char) (hn : n ≠ [])
    (hnd : ∀ c ∈ n, c.isDigit = true) (hhv : HeadVal hv)
    (hf : f ≠ []) (hfc : ∀ c ∈ f, formatClass c = true) :
    findOrderCap (seg3 (orderSegL n) (headSegL hv) (fmtSegL f)) = some n ∧
    findHeadCap (seg3 (orderSegL n) (headSegL hv) (fmtSegL f)) = some hv ∧
    findFmtCap (seg3 (orderSegL n) (headSegL hv) (fmtSegL f)) = some f := by
  have hnd' := digit_ne_eq n hnd
  have hhv' := headVal_ne_eq hv hhv
  have hcls := digit_orderClass n hnd
  unfold seg3 orderSegL headSegL fmtSegL
  refine ⟨?_, ?_, ?_⟩
  · rw [List.append_assoc]
    exact findOrderCap_hitc n _ hn hcls
  · rw [List.append_assoc, findHeadCap_skip_orderKey,
      findHeadCap_skip_valc n _ hnd']
    exact findHeadCap_hitc hv _ hhv
  · rw [List.append_assoc, findFmtCap_skip_orderKey,
      findFmtCap_skip_valc n _ hnd', List.append_assoc,
      findFmtCap_skip_headKey, findFmtCap_skip_valc hv _ hhv']
    exact findFmtCap_hit_end f hf hfc

theorem caps_ofh (n hv f : List Char) (hn : n ≠ [])
    (hnd : ∀ c ∈ n, c.isDigit = true) (hhv : HeadVal hv)
    (hf : f ≠ []) (hfc : ∀ c ∈ f, formatClass c = true) :
    findOrderCap (seg3 (orderSegL n) (fmtSegL f) (headSegL hv)) = some n ∧
    findHeadCap (seg3 (orderSegL n) (fmtSegL f) (headSegL hv)) = some hv ∧
    findFmtCap (seg3 (orderSegL n) (fmtSegL f) (headSegL hv)) = some f := by
  have hnd' := digit_ne_eq n hnd
  have hfc' := fmt_ne_eq f hfc
  have hcls := digit_orderClass n hnd
  unfold seg3 orderSegL headSegL fmtSegL
  refine ⟨?_, ?_, ?_⟩
  · rw [List.append_assoc]
    exact findOrderCap_hitc n _ hn hcls
  · rw [List.append_assoc, findHeadCap_skip_orderKey,
      findHeadCap_skip_valc n _ hnd', List.append_assoc,
      findHeadCap_skip_fmtKey, findHeadCap_skip_valc f _ hfc']
    exact findHeadCap_hit_end hv hhv
  · rw [List.append_assoc, findFmtCap_skip_orderKey,
      findFmtCap_skip_valc n _ hnd', List.append_assoc]
    exact findFmtCap_hitc f _ hf hfc

theorem caps_hof (n hv f : List Char) (hn : n ≠ [])
    (hnd : ∀ c ∈ n, c.isDigit = true) (hhv : HeadVal hv)
    (hf : f ≠ []) (hfc : ∀ c ∈ f, formatClass c = true) :
    findOrderCap (seg3 (headSegL hv) (orderSegL n) (fmtSegL f)) = some n ∧
    findHeadCap (seg3 (headSegL hv) (orderSegL n) (fmtSegL f)) = some hv ∧
    findFmtCap (seg3 (headSegL hv) (orderSegL n) (fmtSegL f)) = some f := by
  have hnd' := digit_ne_eq n hnd
  have hhv' := headVal_ne_eq hv hhv
  have hcls := digit_orderClass n hnd
  unfold seg3 orderSegL headSegL fmtSegL
  refine ⟨?_, ?_, ?_⟩
  · rw [List.append_assoc, findOrderCap_skip_headKey,
      findOrderCap_skip_valc hv _ hhv', List.append_assoc]
    exact findOrderCap_hitc n _ hn hcls
  · rw [List.append_assoc]
    exact findHeadCap_hitc hv _ hhv
  · rw [List.append_assoc, findFmtCap_skip_headKey,
      findFmtCap_skip_valc hv _ hhv', List.append_assoc,
      findFmtCap_skip_orderKey, findFmtCap_skip_valc n _ hnd']
    exact findFmtCap_hit_end f hf hfc

theorem caps_hfo (n hv f : List Char) (hn : n ≠ [])
    (hnd : ∀ c ∈ n, c.isDigit = true) (hhv : HeadVal hv)
    (hf : f ≠ []) (hfc : ∀ c ∈ f, formatClass c = true) :
    findOrderCap (seg3 (headSegL hv) (fmtSegL f) (orderSegL n)) = some n ∧
    findHeadCap (seg3 (headSegL hv) (fmtSegL f) (orderSegL n)) = some hv ∧
    findFmtCap (seg3 (headSegL hv) (fmtSegL f) (orderSegL n)) = some f := by
  have hnd' := digit_ne_eq n hnd
  have hhv' := headVal_ne_eq hv hhv
  have hfc' := fmt_ne_eq f hfc
  have hcls := digit_orderClass n hnd
  unfold seg3 orderSegL headSegL fmtSegL
  refine ⟨?_, ?_, ?_⟩
  · rw [List.append_assoc, findOrderCap_skip_headKey,
      findOrderCap_skip_valc hv _ hhv', List.append_assoc,
      findOrderCap_skip_fmtKey, findOrderCap_skip_valc f _ hfc']
    exact findOrderCap_hit_end n hn hcls
  · rw [List.append_assoc]
    exact findHeadCap_hitc hv _ hhv
  · rw [List.append_assoc, findFmtCap_skip_headKey,
      findFmtCap_skip_valc hv _ hhv', List.append_assoc]
    exact findFmtCap_hitc f _ hf hfc

theorem caps_foh (n hv f : List Char) (hn : n ≠ [])
    (hnd : ∀ c ∈ n, c.isDigit = true) (hhv : HeadVal hv)
    (hf : f ≠ []) (hfc : ∀ c ∈ f, formatClass c = true) :
    findOrderCap (seg3 (fmtSegL f) (orderSegL n) (headSegL hv)) = some n ∧
    findHeadCap (seg3 (fmtSegL f) (orderSegL n) (headSegL hv)) = some hv ∧
    findFmtCap (seg3 (fmtSegL f) (orderSegL n) (headSegL hv)) = some f := by
  have hnd' := digit_ne_eq n hnd
  have hfc' := fmt_ne_eq f hfc
  have hcls := digit_orderClass n hnd
  unfold seg3 orderSegL headSegL fmtSegL
  refine ⟨?_, ?_, ?_⟩
  · rw [List.append_assoc, findOrderCap_skip_fmtKey,
      findOrderCap_skip_valc f _ hfc', List.append_assoc]
    exact findOrderCap_hitc n _ hn hcls
  · rw [List.append_assoc, findHeadCap_skip_fmtKey,
      findHeadCap_skip_valc f _ hfc', List.append_assoc,
      findHeadCap_skip_orderKey, findHeadCap_skip_valc n _ hnd']
    exact findHeadCap_hit_end hv hhv
  · rw [List.append_assoc]
    exact findFmtCap_hitc f _ hf hfc

theorem caps_fho (n hv f : List Char) (hn : n ≠ [])
    (hnd : ∀ c ∈ n, c.isDigit = true) (hhv : HeadVal hv)
    (hf : f ≠ []) (hfc : ∀ c ∈ f, formatClass c = true) :
    findOrderCap (seg3 (fmtSegL f) (headSegL hv) (orderSegL n)) = some n ∧
    findHeadCap (seg3 (fmtSegL f) (headSegL hv) (orderSegL n)) = some hv ∧
    findFmtCap (seg3 (fmtSegL f) (headSegL hv) (orderSegL n)) = some f := by
  have hnd' := digit_ne_eq n hnd
  have hhv' := headVal_ne_eq hv hhv
  have hfc' := fmt_ne_eq f hfc
  have hcls := digit_orderClass n hnd
  unfold seg3 orderSegL headSegL fmtSegL
  refine ⟨?_, ?_, ?_⟩
  · rw [List.append_assoc, findOrderCap_skip_fmtKey,
      findOrderCap_skip_valc f _ hfc', List.append_assoc,
      findOrderCap_skip_headKey, findOrderCap_skip_valc hv _ hhv']
    exact findOrderCap_hit_end n hn hcls
  · rw [List.append_assoc, findHeadCap_skip_fmtKey,
      findHeadCap_skip_valc f _ hfc', List.append_assoc]
    exact findHeadCap_hitc hv _ hhv
  · rw [List.append_assoc]
    exact findFmtCap_hitc f _ hf hfc

theorem caps_oh (n hv : List Char) (hn : n ≠ [])
    (hnd : ∀ c ∈ n, c.isDigit = true) (hhv : HeadVal hv) :
    findOrderCap (seg2 (orderSegL n) (headSegL hv)) = some n ∧
    findHeadCap (seg2 (orderSegL n) (headSegL hv)) = some hv ∧
    findFmtCap (seg2 (orderSegL n) (headSegL hv)) = none := by
  have hnd' := digit_ne_eq n hnd
  have hhv' := headVal_ne_eq hv hhv
  have hcls := digit_orderClass n hnd
  unfold seg2 orderSegL headSegL
  refine ⟨?_, ?_, ?_⟩
  · rw [List.append_assoc]
    exact findOrderCap_hitc n _ hn hcls
  · rw [List.append_assoc, findHeadCap_skip_orderKey,
      findHeadCap_skip_valc n _ hnd']
    exact findHeadCap_hit_end hv hhv
  · rw [List.append_assoc, findFmtCap_skip_orderKey,
      findFmtCap_skip_valc n _ hnd', findFmtCap_skip_headKey]
    exact findFmtCap_val_end hv hhv'

theorem caps_ho (n hv : List Char) (hn : n ≠ [])
    (hnd : ∀ c ∈ n, c.isDigit = true) (hhv : HeadVal hv) :
    findOrderCap (seg2 (headSegL hv) (orderSegL n)) = some n ∧
    findHeadCap (seg2 (headSegL hv) (orderSegL n)) = some hv ∧
    findFmtCap (seg2 (headSegL hv) (orderSegL n)) = none := by
  have hnd' := digit_ne_eq n hnd
  have hhv' := headVal_ne_eq hv hhv
  have hcls := digit_orderClass n hnd
  unfold seg2 orderSegL headSegL
  refine ⟨?_, ?_, ?_⟩
  · rw [List.append_assoc, findOrderCap_skip_headKey,
      findOrderCap_skip_valc hv _ hhv']
    exact findOrderCap_hit_end n hn hcls
  · rw [List.append_assoc]
    exact findHeadCap_hitc hv _ hhv
  · rw [List.append_assoc, findFmtCap_skip_headKey,
      findFmtCap_skip_valc hv _ hhv', findFmtCap_skip_orderKey]
    exact findFmtCap_val_end n hnd'

/-! ### From captures to parsed options -/

theorem parseOptFromTag_of_caps (tag : String) (n hv f : List Char)
    (hO : findOrderCap tag.data = some n)
    (hH : findHeadCap tag.data = some hv)
    (hF : findFmtCap tag.data = some f)
    (hn : n ≠ []) (hnd : ∀ c ∈ n, c.isDigit = true)
    (hbound : digitsToNat n ≤ 9223372036854775807)
    (htrim : trimSpaceL (trimQuoteL hv) ≠ []) :
    parseOptFromTag tag =
      .ok ⟨(digitsToNat n : Int), String.mk (trimSpaceL (trimQuoteL hv)),
        String.mk f⟩ := by
  have h1 : orderFromTag tag = .ok ((digitsToNat n : Int)) := by
    unfold orderFromTag
    rw [hO]
    show goAtoi n = _
    unfold goAtoi
    rw [if_pos ⟨hn, hnd, hbound⟩]
  have h2 : headingFromTag tag = .ok (String.mk (trimSpaceL (trimQuoteL hv))) := by
    unfold headingFromTag
    rw [hH]
    show (if trimSpaceL (trimQuoteL hv) ≠ [] then
        Except.ok (String.mk (trimSpaceL (trimQuoteL hv)))
      else Except.error XlsError.ErrHeadingPropRequired) = _
    rw [if_pos htrim]
  have h3 : formatFromTag tag = String.mk f := by
    unfold formatFromTag
    rw [hF]
    rfl
  unfold parseOptFromTag
  rw [h1, h2, h3]

theorem parseOptFromTag_of_caps_nofmt (tag : String) (n hv : List Char)
    (hO : findOrderCap tag.data = some n)
    (hH : findHeadCap tag.data = some hv)
    (hF : findFmtCap tag.data = none)
    (hn : n ≠ []) (hnd : ∀ c ∈ n, c.isDigit = true)
    (hbound : digitsToNat n ≤ 9223372036854775807)
    (htrim : trimSpaceL (trimQuoteL hv) ≠ []) :
    parseOptFromTag tag =
      .ok ⟨(digitsToNat n : Int), String.mk (trimSpaceL (trimQuoteL hv)), ""⟩ := by
  have h1 : orderFromTag tag = .ok ((digitsToNat n : Int)) := by
    unfold orderFromTag
    rw [hO]
    show goAtoi n = _
    unfold goAtoi
    rw [if_pos ⟨hn, hnd, hbound⟩]
  have h2 : headingFromTag tag = .ok (String.mk (trimSpaceL (trimQuoteL hv))) := by
    unfold headingFromTag
    rw [hH]
    show (if trimSpaceL (trimQuoteL hv) ≠ [] then
        Except.ok (String.mk (trimSpaceL (trimQuoteL hv)))
      else Except.error XlsError.ErrHeadingPropRequired) = _
    rw [if_pos htrim]
  have h3 : formatFromTag tag = "" := by
    unfold formatFromTag
    rw [hF]
    rfl
  unfold parseOptFromTag
  rw [h1, h2, h3]

/-- C7: for every well-formed annotation carrying `order=N` (N a
nonempty digit string within `strconv.Atoi`'s 64-bit range),
`heading=H` (H unquoted over the unquoted class, or double-quoted over
the quoted class, trimming to a non-empty string) and optionally
`format=F` (F nonempty over the format class), in ANY order of the
comma-separated keys, parsing yields exactly
`{order := N, heading := trim(H) with surrounding quotes stripped,
format := F, or empty when the key is absent}`.  All six permutations
with `format` and both without it are covered. -/
theorem tagGrammarKeysAnyOrder (n hv f : List Char)
    (hn : n ≠ []) (hnd : ∀ c ∈ n, c.isDigit = true)
    (hbound : digitsToNat n ≤ 9223372036854775807)
    (hhv : HeadVal hv) (htrim : trimSpaceL (trimQuoteL hv) ≠ [])
    (hf : f ≠ []) (hfc : ∀ c ∈ f, formatClass c = true) :
    (parseOptFromTag (String.mk (seg3 (orderSegL n) (headSegL hv) (fmtSegL f))) =
      .ok ⟨(digitsToNat n : Int), String.mk (trimSpaceL (trimQuoteL hv)), String.mk f⟩) ∧
    (parseOptFromTag (String.mk (seg3 (orderSegL n) (fmtSegL f) (headSegL hv))) =
      .ok ⟨(digitsToNat n : Int), String.mk (trimSpaceL (trimQuoteL hv)), String.mk f⟩) ∧
    (parseOptFromTag (String.mk (seg3 (headSegL hv) (orderSegL n) (fmtSegL f))) =
      .ok ⟨(digitsToNat n : Int), String.mk (trimSpaceL (trimQuoteL hv)), String.mk f⟩) ∧
    (parseOptFromTag (String.mk (seg3 (headSegL hv) (fmtSegL f) (orderSegL n))) =
      .ok ⟨(digitsToNat n : Int), String.mk (trimSpaceL (trimQuoteL hv)), String.mk f⟩) ∧
    (parseOptFromTag (String.mk (seg3 (fmtSegL f) (orderSegL n) (headSegL hv))) =
      .ok ⟨(digitsToNat n : Int), String.mk (trimSpaceL (trimQuoteL hv)), String.mk f⟩) ∧
    (parseOptFromTag (String.mk (seg3 (fmtSegL f) (headSegL hv) (orderSegL n))) =
      .ok ⟨(digitsToNat n : Int), String.mk (trimSpaceL (trimQuoteL hv)), String.mk f⟩) ∧
    (parseOptFromTag (String.mk (seg2 (orderSegL n) (headSegL hv))) =
      .ok ⟨(digitsToNat n : Int), String.mk (trimSpaceL (trimQuoteL hv)), ""⟩) ∧
    (parseOptFromTag (String.mk (seg2 (headSegL hv) (orderSegL n))) =
      .ok ⟨(digitsToNat n : Int), String.mk (trimSpaceL (trimQuoteL hv)), ""⟩) := by
  obtain ⟨a1, a2, a3⟩ := caps_ohf n hv f hn hnd hhv hf hfc
  obtain ⟨b1, b2, b3⟩ := caps_ofh n hv f hn hnd hhv hf hfc
  obtain ⟨c1, c2, c3⟩ := caps_hof n hv f hn hnd hhv hf hfc
  obtain ⟨d1, d2, d3⟩ := caps_hfo n hv f hn hnd hhv hf hfc
  obtain ⟨e1, e2, e3⟩ := caps_foh n hv f hn hnd hhv hf hfc
  obtain ⟨g1, g2, g3⟩ := caps_fho n hv f hn hnd hhv hf hfc
  obtain ⟨i1, i2, i3⟩ := caps_oh n hv hn hnd hhv
  obtain ⟨j1, j2, j3⟩ := caps_ho n hv hn hnd hhv
  exact ⟨parseOptFromTag_of_caps _ n hv f a1 a2 a3 hn hnd hbound htrim,
    parseOptFromTag_of_caps _ n hv f b1 b2 b3 hn hnd hbound htrim,
    parseOptFromTag_of_caps _ n hv f c1 c2 c3 hn hnd hbound htrim,
    parseOptFromTag_of_caps _ n hv f d1 d2 d3 hn hnd hbound htrim,
    parseOptFromTag_of_caps _ n hv f e1 e2 e3 hn hnd hbound htrim,
    parseOptFromTag_of_caps _ n hv f g1 g2 g3 hn hnd hbound htrim,
    parseOptFromTag_of_caps_nofmt _ n hv i1 i2 i3 hn hnd hbound htrim,
    parseOptFromTag_of_caps_nofmt _ n hv j1 j2 j3 hn hnd hbound htrim⟩

/-- Witness for C7: `order=7`, `heading=N`, `format=%v`. -/
theorem tagGrammarKeysAnyOrderWitness :
    ((['7'] : List Char) ≠ [] ∧ (∀ c ∈ (['7'] : List Char), c.isDigit = true) ∧
      digitsToNat ['7'] ≤ 9223372036854775807 ∧ HeadVal ['N'] ∧
      trimSpaceL (trimQuoteL ['N']) ≠ [] ∧ (['%', 'v'] : List Char) ≠ [] ∧
      (∀ c ∈ (['%', 'v'] : List Char), formatClass c = true)) ∧
    parseOptFromTag
        (String.mk (seg3 (orderSegL ['7']) (headSegL ['N']) (fmtSegL ['%', 'v']))) =
      .ok ⟨(digitsToNat ['7'] : Int), String.mk (trimSpaceL (trimQuoteL ['N'])),
        String.mk ['%', 'v']⟩ := by
  have hhv : HeadVal ['N'] := Or.inl ⟨by decide, by decide⟩
  refine ⟨⟨by decide, by decide, by decide, hhv, by decide, by decide, by decide⟩, ?_⟩
  exact (tagGrammarKeysAnyOrder ['7'] ['N'] ['%', 'v'] (by decide) (by decide)
    (by decide) hhv (by decide) (by decide) (by decide)).1

/-! ## C4 (amended): distinct orders place every column correctly

Spec-side description of a data row: the value of the (unique) field
whose parsed order equals a given order value. -/

/-- The annotated (non-skipped) fields of one record, with their
values. -/
def taggedOf (schema : List String) (it : List FieldValue) :
    List (String × FieldValue) :=
  (schema.zip it).filter (fun fv => !skipTag fv.1)

/-- The value of the first field whose parsed order is `o` (unique
when orders are pairwise distinct). -/
def valueForOrder (fields : List (String × FieldValue)) (o : Int) : FieldValue :=
  match fields.find? (fun fv => orderValOf fv.1 == o) with
  | some fv => fv.2
  | none => .vstring ""

theorem setNth_length (l : List String) (i : Nat) (s : String) :
    (setNth l i s).length = l.length := by
  induction l generalizing i with
  | nil => rfl
  | cons x xs ih =>
    cases i with
    | zero => rfl
    | succ n => simpa [setNth] using ih n

theorem setNth_get_same (l : List String) (i : Nat) (s : String)
    (h : i < l.length) : (setNth l i s).get? i = some s := by
  induction l generalizing i with
  | nil => simp at h
  | cons x xs ih =>
    cases i with
    | zero => rfl
    | succ n => simpa [setNth] using ih n (by simpa using h)

theorem setNth_get_other (l : List String) (i j : Nat) (s : String)
    (h : i ≠ j) : (setNth l i s).get? j = l.get? j := by
  induction l generalizing i j with
  | nil => rfl
  | cons x xs ih =>
    cases i with
    | zero =>
      cases j with
      | zero => exact absurd rfl h
      | succ m => rfl
    | succ n =>
      cases j with
      | zero => rfl
      | succ m => simpa [setNth] using ih n m (fun he => h (by rw [he]))

theorem processItem_length (sorted : List parseOpts) (posMap : List (Int × Nat))
    (fields : List (String × FieldValue)) :
    ∀ values : List String,
      (processItem sorted posMap fields values).length = values.length := by
  induction fields with
  | nil => intro values; rfl
  | cons fv rest ih =>
    intro values
    by_cases hskip : skipTag fv.1
    · simpa [processItem, hskip] using ih values
    · simp only [processItem, hskip, if_false, Bool.false_eq_true]
      rw [ih, setNth_length]

/-! ### The order-to-cell map under distinct orders -/

theorem idxPairs_filter_nil (o : Int) :
    ∀ (l : List parseOpts) (i : Nat), o ∉ l.map parseOpts.order →
      (idxPairs i l).filter (fun pr => pr.1 == o) = [] := by
  intro l
  induction l with
  | nil => intro i _; rfl
  | cons a t ih =>
    intro i ho
    have h1 : ¬a.order = o := fun he => ho (by rw [← he]; exact List.mem_map_of_mem _ (List.mem_cons_self _ _))
    have h2 : o ∉ t.map parseOpts.order := fun hm => ho (List.mem_cons_of_mem _ hm)
    simp only [idxPairs, List.filter_cons]
    rw [if_neg (by simpa using h1)]
    exact ih (i + 1) h2

theorem lookupPos_idxPairs (o : Int) :
    ∀ (l : List parseOpts) (i p : Nat) (hp : p < l.length),
      (l.map parseOpts.order).Nodup →
      (l.get ⟨p, hp⟩).order = o →
      lookupPos (idxPairs i l) o = i + p := by
  intro l
  induction l with
  | nil => intro i p hp; simp at hp
  | cons a t ih =>
    intro i p hp hnd hget
    rw [List.map_cons, List.nodup_cons] at hnd
    have hnd1 : a.order ∉ t.map parseOpts.order := hnd.1
    have hnd2 : (t.map parseOpts.order).Nodup := hnd.2
    cases p with
    | zero =>
      have ha : a.order = o := hget
      unfold lookupPos
      simp only [idxPairs, List.filter_cons]
      rw [if_pos (by simpa using ha), idxPairs_filter_nil o t (i + 1) (ha ▸ hnd1)]
      rfl
    | succ m =>
      have hm : m < t.length := by simpa using hp
      have hto : (t.get ⟨m, hm⟩).order = o := hget
      have hne : ¬a.order = o := by
        intro he
        apply hnd1
        rw [he, ← hto]
        exact List.mem_map_of_mem _ (List.get_mem t _ _)
      unfold lookupPos
      simp only [idxPairs, List.filter_cons]
      rw [if_neg (by simpa using hne)]
      have := ih (i + 1) m hm hnd2 hto
      unfold lookupPos at this
      rw [this]
      omega

theorem lookupPos_orderToCellPos (sorted : List parseOpts)
    (hn : (sorted.map parseOpts.order).Nodup) (p : Nat) (hp : p < sorted.length) :
    lookupPos (orderToCellPos sorted) ((sorted.get ⟨p, hp⟩).order) = p := by
  have := lookupPos_idxPairs ((sorted.get ⟨p, hp⟩).order) sorted 0 p hp hn rfl
  simpa [orderToCellPos] using this

theorem order_index_inj (sorted : List parseOpts)
    (hn : (sorted.map parseOpts.order).Nodup) (q p : Nat)
    (hq : q < sorted.length) (hp : p < sorted.length)
    (h : (sorted.get ⟨q, hq⟩).order = (sorted.get ⟨p, hp⟩).order) : q = p := by
  have hq' : q < (sorted.map parseOpts.order).length := by simpa using hq
  have hp' : p < (sorted.map parseOpts.order).length := by simpa using hp
  have hmap : (sorted.map parseOpts.order).get ⟨q, hq'⟩ =
      (sorted.map parseOpts.order).get ⟨p, hp'⟩ := by
    simpa [List.get_eq_getElem, List.getElem_map] using h
  have := hn.get_inj_iff.mp hmap
  exact congrArg Fin.val this

/-! ### Alignment of parsed options with the annotated tags -/

theorem orderValOf_of_parse (tag : String) (opt : parseOpts)
    (h : parseOptFromTag tag = .ok opt) : orderValOf tag = opt.order := by
  unfold parseOptFromTag at h
  unfold orderValOf
  cases ho : orderFromTag tag with
  | error e => rw [ho] at h; cases h
  | ok n =>
    rw [ho] at h
    cases hh : headingFromTag tag with
    | error e => rw [hh] at h; cases h
    | ok hd =>
      rw [hh] at h
      cases h
      rfl

theorem getParseOptions_forall2 (schema : List String) (opts : List parseOpts)
    (h : getParseOptions schema = .ok opts) :
    List.Forall₂ (fun tag opt => parseOptFromTag tag = .ok opt)
      (schema.filter (fun t => !skipTag t)) opts := by
  induction schema generalizing opts with
  | nil =>
    cases h
    simp
  | cons tag rest ih =>
    by_cases hskip : skipTag tag
    · rw [getParseOptions, if_pos hskip] at h
      simpa [List.filter_cons, hskip] using ih opts h
    · rw [getParseOptions, if_neg hskip] at h
      cases hp : parseOptFromTag tag with
      | error e => rw [hp] at h; cases h
      | ok opt =>
        rw [hp] at h
        cases hr : getParseOptions rest with
        | error e => rw [hr] at h; cases h
        | ok opts2 =>
          rw [hr] at h
          cases h
          rw [List.filter_cons, if_pos (by simpa using hskip)]
          exact List.Forall₂.cons hp (ih opts2 hr)

theorem map_orderValOf_of_forall2 (tags : List String) (opts : List parseOpts)
    (h : List.Forall₂ (fun tag opt => parseOptFromTag tag = .ok opt) tags opts) :
    tags.map orderValOf = opts.map parseOpts.order := by
  induction h with
  | nil => rfl
  | cons hp _ ih =>
    simp only [List.map_cons, ih, orderValOf_of_parse _ _ hp]

theorem taggedOf_fst (schema : List String) :
    ∀ it : List FieldValue, it.length = schema.length →
      (taggedOf schema it).map Prod.fst = schema.filter (fun t => !skipTag t) := by
  induction schema with
  | nil => intro it _; rfl
  | cons tag rest ih =>
    intro it hlen
    cases it with
    | nil => simp at hlen
    | cons v vs =>
      have hlen2 : vs.length = rest.length := by simpa using hlen
      by_cases hskip : skipTag tag
      · simp only [taggedOf, List.zip_cons_cons, List.filter_cons, hskip,
          Bool.not_true, Bool.false_eq_true, if_false, List.filter]
        simpa [taggedOf] using ih vs hlen2
      · have hskip' : skipTag tag = false := by
          rwa [Bool.not_eq_true] at hskip
        simp only [taggedOf, List.zip_cons_cons, List.filter_cons, hskip',
          Bool.not_false, if_true, List.map_cons]
        rw [show ((rest.zip vs).filter (fun fv => !skipTag fv.1)).map Prod.fst =
          rest.filter (fun t => !skipTag t) from by simpa [taggedOf] using ih vs hlen2]

/-! ### Last write equals unique find under distinct keys -/

theorem find_eq_getLast_filter (o : Int) :
    ∀ fields : List (String × FieldValue),
      (fields.map (fun fv => orderValOf fv.1)).Nodup →
      (fields.filter (fun fv => orderValOf fv.1 == o)).getLast? =
        fields.find? (fun fv => orderValOf fv.1 == o) := by
  intro fields
  induction fields with
  | nil => intro _; rfl
  | cons fv rest ih =>
    intro hn
    rw [List.map_cons, List.nodup_cons] at hn
    by_cases hmatch : orderValOf fv.1 = o
    · rw [List.filter_cons, if_pos (by simpa using hmatch),
        List.find?_cons_of_pos _ (by simpa using hmatch)]
      have hrest : rest.filter (fun fv2 => orderValOf fv2.1 == o) = [] := by
        rw [List.filter_eq_nil_iff]
        intro a ha
        simp only [beq_iff_eq]
        intro he
        exact hn.1 (by
          rw [hmatch, ← he]
          exact List.mem_map_of_mem _ ha)
      rw [hrest]
      rfl
    · rw [List.filter_cons, if_neg (by simpa using hmatch),
        List.find?_cons_of_neg _ (by simpa using hmatch)]
      exact ih hn.2

/-! ### What `processItem` leaves in each cell -/

/-- Characterisation of the inner field loop: cell `p` of the values
slice ends up holding the formatted value of the LAST non-skipped
field whose parsed order is the order of the spec at position `p` of
the sorted slice (later fields overwrite earlier ones through the
shared `orderToCellPos` entry), and keeps its previous content when no
field maps there. -/
theorem processItem_get (sorted : List parseOpts)
    (hn : (sorted.map parseOpts.order).Nodup) :
    ∀ (fields : List (String × FieldValue)) (values : List String),
      values.length = sorted.length →
      (∀ fv ∈ fields, skipTag fv.1 = false →
        orderValOf fv.1 ∈ sorted.map parseOpts.order) →
      ∀ (p : Nat) (hp : p < sorted.length),
        (processItem sorted (orderToCellPos sorted) fields values).get? p =
          match (fields.filter (fun fv =>
              !skipTag fv.1 &&
                (orderValOf fv.1 == (sorted.get ⟨p, hp⟩).order))).getLast? with
          | some fv => some (formatValue (sorted.get ⟨p, hp⟩) fv.2)
          | none => values.get? p := by
  intro fields
  induction fields with
  | nil => intro values _ _ p hp; rfl
  | cons fv rest ih =>
    intro values hvlen hmem p hp
    by_cases hskip : skipTag fv.1
    · have hpred : (!skipTag fv.1 &&
          (orderValOf fv.1 == (sorted.get ⟨p, hp⟩).order)) = false := by
        rw [hskip]; rfl
      rw [show processItem sorted (orderToCellPos sorted) (fv :: rest) values =
            processItem sorted (orderToCellPos sorted) rest values from by
          simp [processItem, hskip],
        List.filter_cons, if_neg (by rw [hpred]; exact Bool.false_ne_true)]
      exact ih values hvlen (fun a ha hs => hmem a (List.mem_cons_of_mem _ ha) hs) p hp
    · have hskip' : skipTag fv.1 = false := by rwa [Bool.not_eq_true] at hskip
      have ho : orderValOf fv.1 ∈ sorted.map parseOpts.order :=
        hmem fv (List.mem_cons_self _ _) hskip'
      obtain ⟨opt, hoptmem, heq⟩ := List.mem_map.mp ho
      obtain ⟨⟨q, hq⟩, hget⟩ := List.mem_iff_get.mp hoptmem
      have hqo : (sorted.get ⟨q, hq⟩).order = orderValOf fv.1 := by rw [hget]; exact heq
      have hpos : lookupPos (orderToCellPos sorted) (orderValOf fv.1) = q := by
        rw [← hqo]
        exact lookupPos_orderToCellPos sorted hn q hq
      have hgetD : sorted.getD q default = sorted.get ⟨q, hq⟩ := by
        simp [List.getD_eq_getElem?_getD, List.getElem?_eq_getElem hq,
          List.get_eq_getElem]
      have hstep : processItem sorted (orderToCellPos sorted) (fv :: rest) values =
          processItem sorted (orderToCellPos sorted) rest
            (setNth values q (formatValue (sorted.get ⟨q, hq⟩) fv.2)) := by
        simp only [processItem, hskip', Bool.false_eq_true, if_false, hpos, hgetD]
      rw [hstep, ih _ (by rw [setNth_length]; exact hvlen)
        (fun a ha hs => hmem a (List.mem_cons_of_mem _ ha) hs) p hp]
      by_cases hqp : q = p
      · subst hqp
        have hpred : (!skipTag fv.1 &&
            (orderValOf fv.1 == (sorted.get ⟨q, hp⟩).order)) = true := by
          rw [hskip']
          simp only [Bool.not_false, Bool.true_and, beq_iff_eq]
          exact hqo.symm
        rw [List.filter_cons, if_pos hpred]
        cases hrf : rest.filter (fun fv2 => !skipTag fv2.1 &&
            (orderValOf fv2.1 == (sorted.get ⟨q, hp⟩).order)) with
        | nil =>
          rw [setNth_get_same values q _ (by rw [hvlen]; exact hq)]
          rfl
        | cons x xs =>
          rw [List.getLast?_cons_cons]
          cases h2 : (x :: xs).getLast? with
          | none => exact absurd h2 (by simp)
          | some y => rfl
      · have hne : ¬(orderValOf fv.1 = (sorted.get ⟨p, hp⟩).order) := by
          intro he
          exact hqp (order_index_inj sorted hn q p hq hp (by rw [hqo, he]))
        have hpred : (!skipTag fv.1 &&
            (orderValOf fv.1 == (sorted.get ⟨p, hp⟩).order)) = false := by
          rw [hskip']
          simp only [Bool.not_false, Bool.true_and]
          rw [beq_eq_false_iff_ne]
          exact hne
        rw [List.filter_cons, if_neg (by rw [hpred]; exact Bool.false_ne_true),
          setNth_get_other values q p _ hqp]

/-! ### One full data row under distinct orders -/

/-- With pairwise-distinct order values, every cell of the values
slice is overwritten during the field loop, so the resulting row is
exactly the sorted specs' formatted values — independent of the
slice's previous contents (the re-used `values` slice). -/
theorem processItem_row (sorted : List parseOpts)
    (hn : (sorted.map parseOpts.order).Nodup)
    (schema : List String) (it : List FieldValue) (values : List String)
    (hvlen : values.length = sorted.length)
    (hperm : ((taggedOf schema it).map (fun fv => orderValOf fv.1)).Perm
      (sorted.map parseOpts.order)) :
    processItem sorted (orderToCellPos sorted) (schema.zip it) values =
      sorted.map (fun opt =>
        formatValue opt (valueForOrder (taggedOf schema it) opt.order)) := by
  have hmem : ∀ fv ∈ schema.zip it, skipTag fv.1 = false →
      orderValOf fv.1 ∈ sorted.map parseOpts.order := by
    intro fv hfv hs
    apply hperm.mem_iff.mp
    apply List.mem_map_of_mem
    exact List.mem_filter.mpr ⟨hfv, by rw [hs]; rfl⟩
  apply List.ext_get?
  intro p
  by_cases hp : p < sorted.length
  · rw [processItem_get sorted hn (schema.zip it) values hvlen hmem p hp,
      show (sorted.map (fun opt =>
          formatValue opt (valueForOrder (taggedOf schema it) opt.order))).get? p =
        some (formatValue (sorted.get ⟨p, hp⟩)
          (valueForOrder (taggedOf schema it) (sorted.get ⟨p, hp⟩).order)) from by
        rw [List.get?_map, List.get?_eq_get hp]; rfl]
    have hbridge : (schema.zip it).filter (fun fv => !skipTag fv.1 &&
        (orderValOf fv.1 == (sorted.get ⟨p, hp⟩).order)) =
        (taggedOf schema it).filter
          (fun fv => orderValOf fv.1 == (sorted.get ⟨p, hp⟩).order) := by
      unfold taggedOf
      rw [List.filter_filter]
      exact List.filter_congr (fun a _ => by rw [Bool.and_comm])
    rw [hbridge,
      find_eq_getLast_filter _ _ (hperm.nodup_iff.mpr hn)]
    have hsurj : ∃ fv ∈ taggedOf schema it,
        orderValOf fv.1 = (sorted.get ⟨p, hp⟩).order := by
      have hmem2 : (sorted.get ⟨p, hp⟩).order ∈
          (taggedOf schema it).map (fun fv => orderValOf fv.1) := by
        apply hperm.mem_iff.mpr
        exact List.mem_map_of_mem _ (List.get_mem sorted p hp)
      rcases List.mem_map.mp hmem2 with ⟨fv, hfv, he⟩
      exact ⟨fv, hfv, he⟩
    cases hfind : (taggedOf schema it).find?
        (fun fv => orderValOf fv.1 == (sorted.get ⟨p, hp⟩).order) with
    | none =>
      rcases hsurj with ⟨fv, hfv, he⟩
      have := List.find?_eq_none.mp hfind fv hfv
      simp only [beq_iff_eq] at this
      exact absurd he this
    | some fv =>
      rw [show valueForOrder (taggedOf schema it) ((sorted.get ⟨p, hp⟩).order) =
          fv.2 from by unfold valueForOrder; rw [hfind]]
  · rw [Nat.not_lt] at hp
    rw [List.get?_eq_none.mpr (by
        rw [processItem_length, hvlen]; exact hp),
      List.get?_eq_none.mpr (by rw [List.length_map]; exact hp)]

/-- The outer loop: under distinct orders every row is fully rewritten,
so the re-use of the `values` slice across rows is invisible and each
emitted row is its record's sorted formatted values. -/
theorem emitRows_eq (sorted : List parseOpts)
    (hn : (sorted.map parseOpts.order).Nodup) (schema : List String) :
    ∀ (items : List (List FieldValue)) (values : List String),
      values.length = sorted.length →
      (∀ it ∈ items, ((taggedOf schema it).map (fun fv => orderValOf fv.1)).Perm
        (sorted.map parseOpts.order)) →
      emitRows schema sorted (orderToCellPos sorted) items values =
        items.map (fun it => sorted.map (fun opt =>
          formatValue opt (valueForOrder (taggedOf schema it) opt.order))) := by
  intro items
  induction items with
  | nil => intro values _ _; rfl
  | cons it rest ih =>
    intro values hvlen hperm
    simp only [emitRows, List.map_cons]
    rw [processItem_row sorted hn schema it values hvlen
      (hperm it (List.mem_cons_self _ _)),
      ih _ (by rw [List.length_map]) (fun a ha => hperm a (List.mem_cons_of_mem _ ha))]

/-- C4 (amended): when the parsed column specs carry pairwise-distinct
order values, the declarative write emits the header and, for every
record, a data row whose cell at each position holds the formatted
value of the record's field whose order occupies that position of the
ascending (strictly, by distinctness) sorted spec sequence. -/
theorem writeWithTagsDistinctOrders (schema : List String)
    (items : List (List FieldValue)) (opts : List parseOpts)
    (hopts : getParseOptions schema = .ok opts)
    (hdist : (opts.map parseOpts.order).Nodup)
    (hlen : ∀ it ∈ items, it.length = schema.length) :
    writeWithTags schema items =
      .ok ((sortByOrder opts).map parseOpts.heading ::
        items.map (fun it => (sortByOrder opts).map (fun opt =>
          formatValue opt (valueForOrder (taggedOf schema it) opt.order)))) ∧
    List.Pairwise (fun a b => a.order < b.order) (sortByOrder opts) := by
  have hperm0 : (sortByOrder opts).Perm opts := List.perm_insertionSort leOrder opts
  have hnsorted : ((sortByOrder opts).map parseOpts.order).Nodup :=
    ((hperm0.map parseOpts.order).nodup_iff).mpr hdist
  have hsorted : List.Pairwise leOrder (sortByOrder opts) :=
    List.sorted_insertionSort leOrder opts
  constructor
  · have hkeys : (schema.filter (fun t => !skipTag t)).map orderValOf =
        opts.map parseOpts.order :=
      map_orderValOf_of_forall2 _ _ (getParseOptions_forall2 schema opts hopts)
    have hstep : writeWithTags schema items =
        .ok ((sortByOrder opts).map parseOpts.heading ::
          emitRows schema (sortByOrder opts) (orderToCellPos (sortByOrder opts))
            items (List.replicate (sortByOrder opts).length "")) := by
      unfold writeWithTags
      rw [hopts]
    rw [hstep, emitRows_eq (sortByOrder opts) hnsorted schema items _
      (by rw [List.length_replicate]) ?_]
    intro it hit
    have h1 : (taggedOf schema it).map (fun fv => orderValOf fv.1) =
        opts.map parseOpts.order := by
      rw [show (taggedOf schema it).map (fun fv => orderValOf fv.1) =
          ((taggedOf schema it).map Prod.fst).map orderValOf from by
        rw [List.map_map]; rfl,
        taggedOf_fst schema it (hlen it hit), hkeys]
    rw [h1]
    exact (hperm0.map parseOpts.order).symm
  · have hne : List.Pairwise (fun a b : parseOpts => a.order ≠ b.order)
        (sortByOrder opts) := by
      have h2 := hnsorted
      unfold List.Nodup at h2
      exact List.pairwise_map.mp h2
    exact (hsorted.and hne).imp (fun h => lt_of_le_of_ne h.1 h.2)

/-- Witness for the amended C4: two fields with orders 2 and 1; the
header and the row come out in ascending order 1, 2. -/
theorem writeWithTagsDistinctOrdersWitness :
    (getParseOptions ["order=2,heading=B", "order=1,heading=A"] =
      .ok [⟨2, "B", ""⟩, ⟨1, "A", ""⟩]) ∧
    (([(⟨2, "B", ""⟩ : parseOpts), ⟨1, "A", ""⟩].map parseOpts.order).Nodup) ∧
    (∀ it ∈ [[FieldValue.vstringer "x", FieldValue.vstringer "y"]],
      it.length = ["order=2,heading=B", "order=1,heading=A"].length) ∧
    (writeWithTags ["order=2,heading=B", "order=1,heading=A"]
        [[FieldValue.vstringer "x", FieldValue.vstringer "y"]] =
      .ok ((sortByOrder [⟨2, "B", ""⟩, ⟨1, "A", ""⟩]).map parseOpts.heading ::
        [[FieldValue.vstringer "x", FieldValue.vstringer "y"]].map (fun it =>
          (sortByOrder [⟨2, "B", ""⟩, ⟨1, "A", ""⟩]).map (fun opt =>
            formatValue opt (valueForOrder
              (taggedOf ["order=2,heading=B", "order=1,heading=A"] it)
              opt.order)))) ∧
      List.Pairwise (fun a b => a.order < b.order)
        (sortByOrder [⟨2, "B", ""⟩, ⟨1, "A", ""⟩])) := by
  refine ⟨rfl, by decide, ?_, ?_⟩
  · intro it hit
    rw [List.mem_singleton.mp hit]
    rfl
  · exact writeWithTagsDistinctOrders _ _ _ rfl (by decide)
      (fun it hit => by rw [List.mem_singleton.mp hit]; rfl)

end XlsxTags
